import Mathlib

/-!
Verification of the evaluation/metrics pipeline of a diffusion-based anomaly
detection repository (files `evaluations/metrics.py` and
`evaluations/evaluate.py`).

Arrays are embedded as lists of rationals.  A batched array of shape
`(N, ...)` becomes a `Batch`: a type tag (torch tensor vs numpy array), the
per-sample shape, and the list of flattened per-sample data.  Machine floats
are modelled by exact rationals; for every concrete input evaluated below the
float computation and the rational computation agree (this was checked by
hand for the byte conversions `0.9*255 = 229.5` and `0.1*255 = 25.5`, which
round to the same doubles).
-/

/-- Pointwise product summed: `np.dot`/`torch.dot` of two flat vectors. -/
def dot (xs ys : List ℚ) : ℚ := (List.zipWith (· * ·) xs ys).sum

/-- Minimum of a list, `arr.min()` of a (nonempty) numpy array.
The empty case is irrelevant (numpy raises there) and defaults to 0. -/
def listMin : List ℚ → ℚ
  | [] => 0
  | h :: t => t.foldl min h

/-- A batched numpy array / torch tensor: `tensor` is the `type(...)` tag
(`true` for `torch.Tensor`), `sshape` the shape of one sample, `samples` the
flattened data of each sample.  The full shape is `samples.length :: sshape`. -/
structure Batch where
  tensor : Bool
  sshape : List ℕ
  samples : List (List ℚ)
deriving DecidableEq

/-- `metrics.dice_coeff(targets, images, mask_fn, epsilon)`.
The leading `assert images.shape == targets.shape and type(images) == type(targets)`
is modelled by returning `none` (an `AssertionError`) when the check fails;
the `for image, target in zip(images, targets)` accumulation is a fold, and the
final `dice / images.shape[0]` divides by the number of samples. -/
def dice_coeff (targets images : Batch) (mask_fn : List ℚ → List ℚ) (epsilon : ℚ) : Option ℚ :=
  if images.sshape = targets.sshape ∧ images.samples.length = targets.samples.length ∧
      images.tensor = targets.tensor then
    some (((images.samples.zip targets.samples).foldl
        (fun acc p =>
          let image := mask_fn p.1
          acc + (2 * dot image p.2 + epsilon) / (image.sum + p.2.sum + epsilon)) 0)
      / (images.samples.length : ℚ))
  else none

/-- Per-pixel region selection of `metrics.region_specific_metrics`:
`ET` keeps label 1, `TC` labels 1 or 4, `WT` labels 1, 2 or 4.
(The numpy `WT` branch produces booleans because of the `> 0 * 1` precedence
slip; booleans behave as 0/1 in all downstream arithmetic, so both are
modelled as the rationals 0 and 1.) -/
def regionMaskVal (region_type : String) (v : ℚ) : ℚ :=
  if region_type = "ET" then (if v = 1 then 1 else 0)
  else if region_type = "TC" then (if v = 1 ∨ v = 4 then 1 else 0)
  else (if v = 1 ∨ v = 2 ∨ v = 4 then 1 else 0)

/-- The mask batch `masks` built by `region_specific_metrics` from `targets`. -/
def regionMasks (region_type : String) (targets : Batch) : Batch :=
  ⟨targets.tensor, targets.sshape, targets.samples.map (List.map (regionMaskVal region_type))⟩

/-- `metrics.region_specific_metrics(targets, images, func, region_type)`:
asserts the region type is one of `ET`, `TC`, `WT` (modelled by `none`),
derives the mask from `targets` and calls `func(masks, images)`. -/
def region_specific_metrics (targets images : Batch) (func : Batch → Batch → Option ℚ)
    (region_type : String) : Option ℚ :=
  if region_type = "ET" ∨ region_type = "TC" ∨ region_type = "WT" then
    func (regionMasks region_type targets) images
  else none

/-- Shallow embedding of `sklearn.metrics.roc_auc_score` on binary 0/1 labels:
the normalized Mann-Whitney statistic (ties count one half), which is the
value sklearn computes by the trapezoidal rule.  sklearn raises when only one
class is present; that is modelled by `none`. -/
def roc_auc_score (target image : List ℚ) : Option ℚ :=
  let pos := ((target.zip image).filter (fun p => p.1 = 1)).map (·.2)
  let neg := ((target.zip image).filter (fun p => p.1 = 0)).map (·.2)
  if pos = [] ∨ neg = [] then none
  else
    some (((pos.map (fun p =>
        (neg.map (fun q => if q < p then (1 : ℚ) else if q = p then 1/2 else 0)).sum)).sum)
      / ((pos.length : ℚ) * (neg.length : ℚ)))

/-- The `for image, target in zip(images, targets)` loop of `metrics.AUROC`:
a sample whose target sums to at most `threshold` overwrites the accumulator
with `-1` (`score = -1`, not `score += -1`); any other sample adds its
ROC-AUC score. -/
def aurocLoop (threshold : ℚ) : List (List ℚ × List ℚ) → ℚ → Option ℚ
  | [], acc => some acc
  | p :: rest, acc =>
    if p.2.sum ≤ threshold then aurocLoop threshold rest (-1)
    else
      match roc_auc_score p.2 p.1 with
      | none => none
      | some v => aurocLoop threshold rest (acc + v)

/-- `metrics.AUROC(targets, images, threshold)`: shape/type assert, the loop
above, then `score / images.shape[0]`.  (The torch branch additionally casts
the target to `uint8`; the targets used here are 0/1-valued, where the cast
is the identity, so it is elided.) -/
def AUROC (targets images : Batch) (threshold : ℚ) : Option ℚ :=
  if images.sshape = targets.sshape ∧ images.samples.length = targets.samples.length ∧
      images.tensor = targets.tensor then
    match aurocLoop threshold (images.samples.zip targets.samples) 0 with
    | none => none
    | some s => some (s / (images.samples.length : ℚ))
  else none

/-- One pixel of the mask of `metrics.nonzero_masking`:
`((images > images.min() * 1.0).sum(channel axis) == 4) * 1.0`, i.e. 1 exactly
when the number of channels strictly above the global minimum `m` is 4. -/
def maskVal (m : ℚ) (px : List ℚ) : ℚ :=
  if px.countP (fun v => decide (m < v)) = 4 then 1 else 0

/-- `metrics.nonzero_masking(images, targets, return_mask=True)`.
`images` is a batch of pixel lists, each pixel a list of channel values;
`targets` a batch of single-channel pixels.  Returns the masked targets
`targets * mask + targets.min() * (1 - mask)` together with the mask.
(The shape/type asserts of the source only constrain inputs and are
reflected in the theorems' hypotheses.) -/
def nonzero_masking (images : List (List (List ℚ))) (targets : List (List ℚ)) :
    List (List ℚ) × List (List ℚ) :=
  let m := listMin images.flatten.flatten
  let mask := images.map (fun s => s.map (maskVal m))
  let tmin := listMin targets.flatten
  (List.zipWith (fun trow mrow =>
      List.zipWith (fun tv mv => tv * mv + tmin * (1 - mv)) trow mrow) targets mask,
   mask)

/-- `(x * 255.0).astype(np.uint8)` for the in-range scores handled here:
truncation toward zero followed by the modular wrap of the C cast. -/
def ratToUint8 (q : ℚ) : ℕ := (⌊q⌋).toNat % 256

/-- Running state of OpenCV's `getThreshVal_Otsu_8u` scan
(`q1` = mass of the low class, `mu1` = its mean — kept un-normalized while the
scan is in a skipped region — `maxSigma`/`maxVal` = best between-class
variance seen and its threshold). -/
structure OtsuState where
  q1 : ℚ
  mu1 : ℚ
  maxSigma : ℚ
  maxVal : ℕ

/-- One iteration of OpenCV's Otsu scan at candidate threshold `i`.  The
float guard `min(q1,q2) < FLT_EPSILON || max(q1,q2) > 1 - FLT_EPSILON` is
exactified to `q1 ≤ 0 ∨ q2 ≤ 0`; the strict `sigma > max_sigma` keeps the
first maximizer. -/
def otsuStep (hist : ℕ → ℕ) (scale mu : ℚ) (i : ℕ) (s : OtsuState) : OtsuState :=
  let p_i : ℚ := (hist i : ℚ) * scale
  let mu1 := s.mu1 * s.q1
  let q1 := s.q1 + p_i
  let q2 := 1 - q1
  if q1 ≤ 0 ∨ q2 ≤ 0 then ⟨q1, mu1, s.maxSigma, s.maxVal⟩
  else
    let m1 := (mu1 + (i : ℚ) * p_i) / q1
    let m2 := (mu - q1 * m1) / q2
    let sigma := q1 * q2 * (m1 - m2) * (m1 - m2)
    if s.maxSigma < sigma then ⟨q1, m1, sigma, i⟩
    else ⟨q1, m1, s.maxSigma, s.maxVal⟩

/-- The `for i in 0..N` scan of OpenCV's Otsu search, written with explicit
fuel so that it can be split and frozen segment-wise in proofs. -/
def otsuLoop (hist : ℕ → ℕ) (scale mu : ℚ) : ℕ → ℕ → OtsuState → OtsuState
  | _, 0, s => s
  | i, Nat.succ fuel, s => otsuLoop hist scale mu (i + 1) fuel (otsuStep hist scale mu i s)

/-- `cv2.threshold(bytes, 0, 255, cv2.THRESH_OTSU)`: the returned threshold of
OpenCV's `getThreshVal_Otsu_8u` — histogram, total mean, then the 256-step
scan keeping the first maximizer of the between-class variance. -/
def otsu (bytes : List ℕ) : ℕ :=
  let n : ℚ := (bytes.length : ℚ)
  let hist : ℕ → ℕ := fun i => bytes.count i
  let scale : ℚ := 1 / n
  let mu : ℚ := (∑ i ∈ Finset.range 256, (i : ℚ) * (hist i : ℚ)) * scale
  (otsuLoop hist scale mu 0 256 ⟨0, 0, 0, 0⟩).maxVal

/-- `pred[np.where(mask > 0)]` rescaled to bytes:
`(masked_pred * 255.0).astype(np.uint8)` from the `mask_fn` of
`metrics.finding_threshold` (also `evaluate.evaluate_image`). -/
def masked_bytes (pred mask : List ℚ) : List ℕ :=
  ((pred.zip mask).filterMap (fun pm => if pm.2 > 0 then some pm.1 else none)).map
    (fun p => ratToUint8 (p * 255))

/-- The binarization `(pred > thresh) * 1.0` of find-threshold mode
(`metrics.py` line 249). -/
def binarize_gt (thresh : ℚ) (pred : List ℚ) : List ℚ :=
  pred.map (fun p => if thresh < p then 1 else 0)

/-- The `mask_fn` closure of `metrics.finding_threshold` (identical in
`evaluate.evaluate_image`), with `return_thresh=True`: select the pixels
inside the mask, scale them to bytes, run Otsu, scale the threshold back by
255, binarize the whole map strictly above it.  `cv2.threshold` raises on an
empty input, modelled by `none`. -/
def mask_fn (pred mask : List ℚ) : Option (ℚ × List ℚ) :=
  let bytes := masked_bytes pred mask
  if bytes = [] then none
  else
    let thresh : ℚ := (otsu bytes : ℚ) / 255
    some (thresh, binarize_gt thresh pred)

/-- The `mask_fn` closure of `metrics.using_thresh`:
`(pred >= metrics_threshs['threshold']) * 1.0`, a fixed threshold compared
non-strictly (`metrics.py` line 283). -/
def using_thresh_mask_fn (thresh : ℚ) (pred : List ℚ) : List ℚ :=
  pred.map (fun p => if thresh ≤ p then 1 else 0)

/-- One pixel of the anomaly score map of `BratsEvaluator.evaluate_images`
(`metrics.py` lines 159-162): the mean over the channel axis of
`np.sqrt((generated - img)**2)` with `img = channels [0:4)/255` and
`generated = channels [5:)/255`.  The elementwise subtraction is defined only
when both slices have the same number of channels; numpy raises a broadcast
error otherwise (a singleton channel axis, impossible for the C ≥ 9 sample
files, is not modelled), which is modelled by `none`. -/
def score_px (px : List ℚ) : Option ℚ :=
  let img := (px.take 4).map (· / 255)
  let gen := (px.drop 5).map (· / 255)
  if gen.length = img.length then
    some ((List.zipWith (fun g i => |g - i|) gen img).sum / (img.length : ℚ))
  else none

/-- The anomaly score map of one loaded sample: `score_px` applied to every
pixel (`pred = np.expand_dims(np.mean(np.sqrt((generated-img)**2), axis=3), axis=-1)`). -/
def score_map (pixels : List (List ℚ)) : Option (List ℚ) :=
  pixels.mapM score_px

/-- The score map as the specification words it: the mean over the four
modality channels of the absolute difference between the input modalities
(channels `[0:4)` scaled by 255) and the generated modalities (channels
`[5:9)` scaled by 255).  Used to compare the code against the claim. -/
def spec_score_map (pixels : List (List ℚ)) : List ℚ :=
  pixels.map (fun px =>
    let img := (px.take 4).map (· / 255)
    let gen := ((px.drop 5).take 4).map (· / 255)
    (List.zipWith (fun g i => |g - i|) gen img).sum / 4)

/-- One loaded sample file `np.load(file_dir)` of shape `(1, H, W, C)`:
the `H*W` pixels of sample 0, each a list of its `C` channel values. -/
structure RawData where
  H : ℕ
  W : ℕ
  pixels : List (List ℚ)

/-- The dict comprehension
`{metric: metric_fn(seg, pred) for metric, metric_fn in self.metrics.items()}`:
a failing metric assert (an `AssertionError`) aborts the whole run. -/
def runMetrics (seg pred : Batch) : List (String × (Batch → Batch → Option ℚ)) →
    Except String (List ℚ)
  | [] => .ok []
  | m :: rest =>
    match m.2 seg pred with
    | none => .error "AssertionError"
    | some v =>
      match runMetrics seg pred rest with
      | .error e => .error e
      | .ok vs => .ok (v :: vs)

/-- The body of the `for file_name in iterf` loop of
`BratsEvaluator.evaluate_images` (`metrics.py` lines 155-178) for one file:
load (`np.load` failures are `.error`), build `img`, `seg`, `generated`, the
score map `pred`, apply `nonzero_masking`, evaluate every metric, then either
skip the sample (`.ok none`) when `metrics_img["AUROC_WT"] == -1` or keep its
row (`.ok (some row)`). -/
def processFile (metrics : List (String × (Batch → Batch → Option ℚ)))
    (file : String × Except String RawData) : Except String (Option (String × List ℚ)) :=
  match file.2 with
  | .error e => .error e
  | .ok data =>
    let img := data.pixels.map (fun px => (px.take 4).map (· / 255))
    let segv := data.pixels.map (fun px => px.getD 4 0)
    match score_map data.pixels with
    | none => .error "ValueError"
    | some predRaw =>
      let predM := (nonzero_masking [img] [predRaw]).1.getD 0 []
      let segB : Batch := ⟨false, [data.H, data.W, 1], [segv]⟩
      let predB : Batch := ⟨false, [data.H, data.W, 1], [predM]⟩
      match runMetrics segB predB metrics with
      | .error e => .error e
      | .ok vals =>
        match List.lookup "AUROC_WT" ((metrics.map Prod.fst).zip vals) with
        | none => .error "KeyError"
        | some a => if a = -1 then .ok none else .ok (some (file.1, vals))

/-- Whether a file is skipped by the sentinel filter
(`if metrics_img["AUROC_WT"] == -1: continue`). -/
def sentinelSkipped (metrics : List (String × (Batch → Batch → Option ℚ)))
    (file : String × Except String RawData) : Bool :=
  match processFile metrics file with
  | .ok none => true
  | _ => false

/-- The full `for file_name in iterf` loop: the first raised exception aborts
the run (there is no handler in the source), otherwise the per-file outcomes
are collected in order. -/
def runFiles (metrics : List (String × (Batch → Batch → Option ℚ))) :
    List (String × Except String RawData) → Except String (List (Option (String × List ℚ)))
  | [] => .ok []
  | f :: rest =>
    match processFile metrics f with
    | .error e => .error e
    | .ok r =>
      match runFiles metrics rest with
      | .error e => .error e
      | .ok rs => .ok (r :: rs)

/-- `BratsEvaluator.evaluate_images`: runs the loop over the (already listed)
sample files and returns the per-sample rows written to `metrics.csv` together
with the per-metric value lists `metrics_imgs` that feed the `(mean, std)`
aggregation. -/
def evaluate_images (metrics : List (String × (Batch → Batch → Option ℚ)))
    (files : List (String × Except String RawData)) :
    Except String (List (String × List ℚ) × List (List ℚ)) :=
  match runFiles metrics files with
  | .error e => .error e
  | .ok rs =>
    .ok (rs.filterMap id,
      (List.range metrics.length).map (fun i => (rs.filterMap id).map (fun r => r.2.getD i 0)))

/-- The `DICE_WT` entry of the metric dict of `metrics.using_thresh`:
`region_specific_metrics` with `func=dice_coeff`, `region_type="WT"` and the
fixed-threshold `mask_fn`. -/
def DICE_WT_metric (thresh : ℚ) : Batch → Batch → Option ℚ :=
  fun t i => region_specific_metrics t i
    (fun masks images => dice_coeff masks images (using_thresh_mask_fn thresh) (1/1000000)) "WT"

/-- The `AUROC_WT` entry of the metric dict of `metrics.using_thresh` and
`metrics.finding_threshold`: `region_specific_metrics` with `func=AUROC`,
`region_type="WT"` and the default minimum-positive threshold 200. -/
def AUROC_WT_metric : Batch → Batch → Option ℚ :=
  fun t i => region_specific_metrics t i (fun masks images => AUROC masks images 200) "WT"

/-- The metric dict of `metrics.using_thresh` at its default threshold
`0.0817678607279089`. -/
def using_thresh_metrics : List (String × (Batch → Batch → Option ℚ)) :=
  [("DICE_WT", DICE_WT_metric (817678607279089/10000000000000000)),
   ("AUROC_WT", AUROC_WT_metric)]

/-- A well-formed tiny sample file: one pixel, nine channels, segmentation
label 1 (the positive-pixel count 1 is below the AUROC minimum 200, so the
sample triggers the sentinel). -/
def rawTiny : RawData := ⟨1, 1, [[0, 0, 0, 0, 1, 0, 0, 0, 0]]⟩

/-- The 2x2 label map `[[1,2],[4,0]]` of the specification's end-to-end
scenario, one sample flattened row-major. -/
def exLabel : Batch := ⟨false, [2, 2], [[1, 2, 4, 0]]⟩

/-- Accumulating fold equals the sum of the mapped list. -/
lemma foldl_add_map {α : Type} (f : α → ℚ) (l : List α) (init : ℚ) :
    l.foldl (fun acc x => acc + f x) init = init + (l.map f).sum := by
  induction l generalizing init with
  | nil => simp
  | cons x xs ih => simp [ih, add_assoc]

/-- C3: for same-shape, same-type batches the Dice coefficient is the
per-sample value `(2*dot(pred, target) + eps) / (sum(pred) + sum(target) + eps)`
with `eps = 1e-6`, averaged over the batch dimension; a shape or type
mismatch fails the assert before any computation. -/
theorem dice_coeff_spec (targets images : Batch) :
    ((images.sshape = targets.sshape ∧ images.samples.length = targets.samples.length ∧
        images.tensor = targets.tensor) →
      images.samples ≠ [] →
      dice_coeff targets images (fun x => x) (1/1000000) =
        some ((((images.samples.zip targets.samples).map
            (fun p => (2 * dot p.1 p.2 + 1/1000000) / (p.1.sum + p.2.sum + 1/1000000))).sum)
          / (images.samples.length : ℚ))) ∧
    (¬(images.sshape = targets.sshape ∧ images.samples.length = targets.samples.length ∧
        images.tensor = targets.tensor) →
      dice_coeff targets images (fun x => x) (1/1000000) = none) := by
  constructor
  · intro h _
    rw [dice_coeff, if_pos h]
    have e := foldl_add_map
      (fun p : List ℚ × List ℚ => (2 * dot p.1 p.2 + 1/1000000) / (p.1.sum + p.2.sum + 1/1000000))
      (images.samples.zip targets.samples) 0
    rw [zero_add] at e
    exact congrArg (fun x => some (x / (images.samples.length : ℚ))) e
  · intro h
    rw [dice_coeff, if_neg h]

/-- C3 witness: on a pair of identical one-sample binary batches the asserts
pass and the Dice coefficient evaluates to 1. -/
theorem dice_coeff_spec_witness :
    dice_coeff ⟨false, [2], [[1, 0]]⟩ ⟨false, [2], [[1, 0]]⟩ (fun x => x) (1/1000000) =
      some 1 := by
  have h := (dice_coeff_spec ⟨false, [2], [[1, 0]]⟩ ⟨false, [2], [[1, 0]]⟩).1
    (by exact ⟨rfl, rfl, rfl⟩) (by simp)
  rw [h]
  norm_num [dot]

/-- C4: the region masker keeps the shape, produces only 0/1 values, selects
exactly label 1 for `ET`, labels 1,4 for `TC`, labels 1,2,4 for `WT`,
reproduces the specification's 2x2 example, and any other region type fails
the assert. -/
theorem region_masker_spec :
    (∀ (t : Batch) (rt : String), rt = "ET" ∨ rt = "TC" ∨ rt = "WT" →
        (regionMasks rt t).tensor = t.tensor ∧ (regionMasks rt t).sshape = t.sshape ∧
        (regionMasks rt t).samples.length = t.samples.length ∧
        ∀ s ∈ (regionMasks rt t).samples, ∀ v ∈ s, v = 0 ∨ v = 1) ∧
    (∀ v : ℚ, (regionMaskVal "ET" v = 1 ↔ v = 1) ∧
        (regionMaskVal "TC" v = 1 ↔ (v = 1 ∨ v = 4)) ∧
        (regionMaskVal "WT" v = 1 ↔ (v = 1 ∨ v = 2 ∨ v = 4))) ∧
    ((regionMasks "WT" exLabel).samples = [[1, 1, 1, 0]] ∧
        (regionMasks "TC" exLabel).samples = [[1, 0, 1, 0]] ∧
        (regionMasks "ET" exLabel).samples = [[1, 0, 0, 0]]) ∧
    (∀ (t i : Batch) (f : Batch → Batch → Option ℚ) (rt : String),
        ¬(rt = "ET" ∨ rt = "TC" ∨ rt = "WT") → region_specific_metrics t i f rt = none) := by
  refine ⟨?_, ?_, ?_, ?_⟩
  · intro t rt _
    refine ⟨rfl, rfl, by simp [regionMasks], ?_⟩
    intro s hs v hv
    simp only [regionMasks, List.mem_map] at hs
    obtain ⟨s0, _, rfl⟩ := hs
    simp only [List.mem_map] at hv
    obtain ⟨v0, _, rfl⟩ := hv
    unfold regionMaskVal
    split_ifs <;> simp
  · intro v
    refine ⟨?_, ?_, ?_⟩
    · rw [regionMaskVal, if_pos rfl]
      split_ifs with h <;> simp [h]
    · rw [regionMaskVal, if_neg (by decide), if_pos rfl]
      split_ifs with h <;> simp [h]
    · rw [regionMaskVal, if_neg (by decide), if_neg (by decide)]
      split_ifs with h <;> simp [h]
  · refine ⟨?_, ?_, ?_⟩ <;> with_unfolding_all decide
  · intro t i f rt h
    rw [region_specific_metrics, if_neg h]

/-- C4 witness: the general clause applied to the concrete 2x2 label batch
with region type `ET`. -/
theorem region_masker_spec_witness :
    (regionMasks "ET" exLabel).tensor = exLabel.tensor ∧
    (regionMasks "ET" exLabel).sshape = exLabel.sshape ∧
    (regionMasks "ET" exLabel).samples.length = exLabel.samples.length ∧
    ∀ s ∈ (regionMasks "ET" exLabel).samples, ∀ v ∈ s, v = 0 ∨ v = 1 :=
  region_masker_spec.1 exLabel "ET" (Or.inl rfl)

/-- C10: find-threshold mode binarizes with a strict `>` while use-threshold
mode binarizes with `>=`; the two coincide on any score map with no pixel
exactly at the threshold, and differ on a map containing a pixel at the
threshold. -/
theorem threshold_comparison_modes :
    (∀ (pred : List ℚ) (t : ℚ), (∀ p ∈ pred, p ≠ t) →
        binarize_gt t pred = using_thresh_mask_fn t pred) ∧
    binarize_gt 1 [1] ≠ using_thresh_mask_fn 1 [1] := by
  constructor
  · intro pred t h
    unfold binarize_gt using_thresh_mask_fn
    apply List.map_congr_left
    intro p hp
    rcases lt_or_gt_of_ne (h p hp) with hlt | hgt
    · rw [if_neg (not_lt.mpr hlt.le), if_neg (not_le.mpr hlt)]
    · rw [if_pos hgt, if_pos hgt.le]
  · intro h
    have : (0 : ℚ) = 1 := by
      have h0 := congrArg (fun l => l.getD 0 2) h
      simp [binarize_gt, using_thresh_mask_fn] at h0
    norm_num at this

/-- C10 witness: the agreement clause applied to a score map avoiding the
threshold. -/
theorem threshold_comparison_modes_witness :
    binarize_gt 1 [0] = using_thresh_mask_fn 1 [0] :=
  threshold_comparison_modes.1 [0] 1 (by norm_num)

/-- C1 (amended): on a singleton batch, a target whose positive-pixel sum is
at most the minimum 200 makes `AUROC` return the sentinel -1 whatever the
prediction is, and a target above the minimum yields the sample's ROC-AUC
score.  (On larger batches a low-positive sample merely overwrites the
accumulator with -1 and the result is the accumulator divided by the batch
size, see the counterexample.) -/
theorem AUROC_singleton_sentinel (tB iB : Batch) (tg im : List ℚ)
    (ht : tB.samples = [tg]) (hi : iB.samples = [im])
    (hs : iB.sshape = tB.sshape) (hk : iB.tensor = tB.tensor) :
    (tg.sum ≤ 200 → AUROC tB iB 200 = some (-1)) ∧
    (200 < tg.sum → AUROC tB iB 200 = roc_auc_score tg im) := by
  have hcond : iB.sshape = tB.sshape ∧ iB.samples.length = tB.samples.length ∧
      iB.tensor = tB.tensor := ⟨hs, by simp [ht, hi], hk⟩
  constructor
  · intro hlow
    rw [AUROC, if_pos hcond, ht, hi]
    simp only [List.zip_cons_cons, List.zip_nil_right, aurocLoop, if_pos hlow]
    simp
  · intro hhigh
    rw [AUROC, if_pos hcond, ht, hi]
    simp only [List.zip_cons_cons, List.zip_nil_right, aurocLoop, if_neg (not_le.mpr hhigh)]
    cases hroc : roc_auc_score tg im with
    | none => simp [hroc]
    | some v => simp [hroc]

/-- C1 witness: the sentinel clause applied to a singleton batch whose target
has no positive pixel. -/
theorem AUROC_singleton_sentinel_witness :
    AUROC ⟨false, [1], [[0]]⟩ ⟨false, [1], [[1/2]]⟩ 200 = some (-1) :=
  (AUROC_singleton_sentinel ⟨false, [1], [[0]]⟩ ⟨false, [1], [[1/2]]⟩ [0] [1/2]
    rfl rfl rfl rfl).1 (by norm_num)

/-- C1 counterexample: in a two-sample batch whose first sample's target sums
to 0 (at most the minimum 200), `AUROC` returns -1/2, not the sentinel -1:
the per-sample sentinel is overwritten into the accumulator and divided by
the batch size. -/
theorem AUROC_batch_counterexample :
    ([(0 : ℚ)].sum ≤ 200) ∧
    AUROC ⟨false, [1], [[0], [0]]⟩ ⟨false, [1], [[1/2], [1/2]]⟩ 200 = some (-(1/2)) ∧
    (-(1/2) : ℚ) ≠ -1 := by
  refine ⟨by norm_num, ?_, by norm_num⟩
  with_unfolding_all decide

/-- A nine-channel pixel has four input and four generated channels, and its
score is the mean over the four channels of the absolute difference. -/
lemma score_px_nine (px : List ℚ) (h9 : px.length = 9) :
    score_px px = some (((List.zipWith (fun g i => |g - i|) ((px.drop 5).map (· / 255))
      ((px.take 4).map (· / 255))).sum) / 4) := by
  have hgen : ((px.drop 5).map (fun x : ℚ => x / 255)).length =
      ((px.take 4).map (fun x : ℚ => x / 255)).length := by
    simp [h9]
  rw [score_px]
  rw [if_pos hgen]
  have hlen : ((((px.take 4).map (fun x : ℚ => x / 255)).length : ℕ) : ℚ) = 4 := by
    simp [h9]
  rw [hlen]

/-- C7 (amended): for sample files with exactly nine channels per pixel the
evaluator's anomaly score map is the per-pixel mean over the four modality
channels of the absolute difference between the input channels `[0:4)` and the
generated channels `[5:9)`, both scaled by 255.  (With more than nine channels
the code's `[5:]` slice mismatches the four input channels and the evaluation
fails, see the counterexample.) -/
theorem score_map_nine_channels (pixels : List (List ℚ))
    (h : ∀ px ∈ pixels, px.length = 9) :
    score_map pixels = some (pixels.map (fun px =>
      ((List.zipWith (fun g i => |g - i|) ((px.drop 5).map (· / 255))
        ((px.take 4).map (· / 255))).sum) / 4)) := by
  induction pixels with
  | nil => rfl
  | cons px rest ih =>
    have h9 : px.length = 9 := h px (List.mem_cons_self px rest)
    have hrest := ih (fun q hq => h q (List.mem_cons_of_mem px hq))
    rw [score_map] at hrest ⊢
    rw [List.mapM_cons, score_px_nine px h9, hrest]
    rfl

/-- C7 witness: the score map of a single well-formed nine-channel pixel. -/
theorem score_map_nine_channels_witness :
    score_map [[0, 0, 0, 0, 1, 0, 0, 0, 0]] =
      some ([[(0 : ℚ), 0, 0, 0, 1, 0, 0, 0, 0]].map (fun px =>
        ((List.zipWith (fun g i => |g - i|) ((px.drop 5).map (· / 255))
          ((px.take 4).map (· / 255))).sum) / 4)) :=
  score_map_nine_channels [[0, 0, 0, 0, 1, 0, 0, 0, 0]] (by simp)

/-- C7 counterexample: on a ten-channel pixel (C = 10 ≥ 9) the code raises a
broadcast error (`none`) instead of computing the specified mean over the
`[5:9)` channels, which is well-defined (here 0). -/
theorem score_map_ten_channel_counterexample :
    score_map [List.replicate 10 0] = none ∧
    spec_score_map [List.replicate 10 0] = [0] := by
  constructor
  · with_unfolding_all decide
  · with_unfolding_all decide

/-- On a 0/1-valued mask row, the arithmetic background substitution
`t * mv + tmin * (1 - mv)` is the selection `if mv = 1 then t else tmin`. -/
lemma zipWith_mask_row (tmin : ℚ) (trow mrow : List ℚ)
    (h : ∀ mv ∈ mrow, mv = 0 ∨ mv = 1) :
    List.zipWith (fun tv mv => tv * mv + tmin * (1 - mv)) trow mrow =
    List.zipWith (fun tv mv => if mv = 1 then tv else tmin) trow mrow := by
  induction trow generalizing mrow with
  | nil => simp
  | cons t ts ih =>
    cases mrow with
    | nil => simp
    | cons mv ms =>
      have hmv := h mv (List.mem_cons_self mv ms)
      have hrest := ih ms (fun x hx => h x (List.mem_cons_of_mem mv hx))
      simp only [List.zipWith_cons_cons, hrest]
      congr 1
      rcases hmv with h0 | h1
      · rw [h0, if_neg (by norm_num)]
        ring
      · rw [h1, if_pos rfl]
        ring

/-- Row-wise version of `zipWith_mask_row`. -/
lemma zipWith_mask_rows (tmin : ℚ) (ts ms : List (List ℚ))
    (h : ∀ r ∈ ms, ∀ v ∈ r, v = 0 ∨ v = 1) :
    List.zipWith (fun trow mrow =>
      List.zipWith (fun tv mv => tv * mv + tmin * (1 - mv)) trow mrow) ts ms =
    List.zipWith (fun trow mrow =>
      List.zipWith (fun tv mv => if mv = 1 then tv else tmin) trow mrow) ts ms := by
  induction ts generalizing ms with
  | nil => simp
  | cons t ts ih =>
    cases ms with
    | nil => simp
    | cons m ms =>
      simp only [List.zipWith_cons_cons]
      rw [zipWith_mask_row tmin t m (h m (List.mem_cons_self m ms)),
        ih ms (fun r hr => h r (List.mem_cons_of_mem m hr))]

/-- C5 (amended): `nonzero_masking` marks a pixel foreground exactly when the
number of channels strictly above the batch's global minimum is 4 — for the
four-channel modality images this coincides with ALL channels exceeding the
minimum (first clause) — and it replaces the target at every background pixel
with the target's global minimum while leaving foreground targets unchanged
(third clause). -/
theorem nonzero_masking_spec (images : List (List (List ℚ))) (targets : List (List ℚ)) :
    (∀ s ∈ images, ∀ px ∈ s, px.length = 4 →
        (maskVal (listMin images.flatten.flatten) px = 1 ↔
          ∀ v ∈ px, listMin images.flatten.flatten < v)) ∧
    (nonzero_masking images targets).2 =
      images.map (fun s => s.map (maskVal (listMin images.flatten.flatten))) ∧
    (nonzero_masking images targets).1 =
      List.zipWith (fun trow mrow => List.zipWith
          (fun tv mv => if mv = 1 then tv else listMin targets.flatten) trow mrow)
        targets ((nonzero_masking images targets).2) := by
  refine ⟨?_, rfl, ?_⟩
  · intro s _ px _ h4
    rw [maskVal, ← h4]
    constructor
    · intro h1
      split_ifs at h1 with hc
      · intro v hv
        exact of_decide_eq_true (List.countP_eq_length.mp hc v hv)
      · exact absurd h1 (by norm_num)
    · intro hall
      rw [if_pos (List.countP_eq_length.mpr (fun v hv => decide_eq_true (hall v hv)))]
  · apply zipWith_mask_rows
    intro r hr v hv
    simp only [nonzero_masking, List.mem_map] at hr
    obtain ⟨s, _, rfl⟩ := hr
    simp only [List.mem_map] at hv
    obtain ⟨px, _, rfl⟩ := hv
    rw [maskVal]
    split_ifs <;> simp

/-- C5 witness: the all-channels clause applied to a four-channel pixel at the
global minimum (no channel strictly exceeds it, mask is 0 and both sides are
false). -/
theorem nonzero_masking_spec_witness :
    maskVal (listMin ([[[1, 1, 1, 1]]] : List (List (List ℚ))).flatten.flatten) [1, 1, 1, 1] = 1 ↔
      ∀ v ∈ [(1 : ℚ), 1, 1, 1],
        listMin ([[[1, 1, 1, 1]]] : List (List (List ℚ))).flatten.flatten < v :=
  (nonzero_masking_spec [[[1, 1, 1, 1]]] [[3]]).1 [[1, 1, 1, 1]] (by simp)
    [1, 1, 1, 1] (by simp) rfl

/-- C5 counterexample: in a batch with one five-channel pixel at the minimum 0
and one five-channel pixel of ones, ALL channels of the second pixel exceed
the global minimum, yet the code marks it background (the channel count 5 is
not 4) and overwrites its target 7 with the target minimum 5. -/
theorem nonzero_masking_counterexample :
    (∀ v ∈ [(1 : ℚ), 1, 1, 1, 1],
        listMin ([[[0, 0, 0, 0, 0], [1, 1, 1, 1, 1]]] : List (List (List ℚ))).flatten.flatten < v) ∧
    (nonzero_masking [[[0, 0, 0, 0, 0], [1, 1, 1, 1, 1]]] [[5, 7]]).2 = [[0, 0]] ∧
    (nonzero_masking [[[0, 0, 0, 0, 0], [1, 1, 1, 1, 1]]] [[5, 7]]).1 = [[5, 5]] := by
  refine ⟨?_, ?_, ?_⟩ <;> with_unfolding_all decide

/-- When the loop over the files succeeds, the number of kept rows plus the
number of sentinel-skipped files equals the number of files. -/
lemma runFiles_ok_length (metrics : List (String × (Batch → Batch → Option ℚ)))
    (files : List (String × Except String RawData)) (rs : List (Option (String × List ℚ)))
    (h : runFiles metrics files = .ok rs) :
    (rs.filterMap id).length + files.countP (sentinelSkipped metrics) = files.length := by
  induction files generalizing rs with
  | nil =>
    simp only [runFiles] at h
    injection h with h'
    subst h'
    simp
  | cons f fs ih =>
    simp only [runFiles] at h
    cases hpf : processFile metrics f with
    | error e =>
      rw [hpf] at h
      simp at h
    | ok r =>
      rw [hpf] at h
      cases hrf : runFiles metrics fs with
      | error e =>
        rw [hrf] at h
        simp at h
      | ok rs' =>
        rw [hrf] at h
        simp only [] at h
        injection h with h'
        subst h'
        have ihr := ih rs' hrf
        cases r with
        | none =>
          have hskip : sentinelSkipped metrics f = true := by
            rw [sentinelSkipped, hpf]
          have hfm : List.filterMap id (none :: rs') = List.filterMap id rs' := by simp
          rw [hfm, List.countP_cons, hskip]
          simp only [if_true, List.length_cons]
          omega
        | some a =>
          have hskip : sentinelSkipped metrics f = false := by
            rw [sentinelSkipped, hpf]
          have hfm : List.filterMap id (some a :: rs') = a :: List.filterMap id rs' := by simp
          rw [hfm, List.countP_cons, hskip]
          simp only [Bool.false_eq_true, if_false, List.length_cons]
          omega

/-- C6: a successful batch evaluation over N sample files keeps one summary
row per file except the k files whose `AUROC_WT` value is the sentinel -1
(N = rows + k), and every per-metric list that feeds the `(mean, std)`
aggregation likewise contains exactly one entry per kept row. -/
theorem evaluate_images_row_filter (metrics : List (String × (Batch → Batch → Option ℚ)))
    (files : List (String × Except String RawData))
    (rows : List (String × List ℚ)) (lists : List (List ℚ))
    (h : evaluate_images metrics files = .ok (rows, lists)) :
    rows.length + files.countP (sentinelSkipped metrics) = files.length ∧
    ∀ l ∈ lists, l.length = rows.length := by
  cases hrf : runFiles metrics files with
  | error e =>
    rw [evaluate_images, hrf] at h
    simp at h
  | ok rs =>
    rw [evaluate_images, hrf] at h
    simp only [] at h
    injection h with h2
    have hrows : rows = rs.filterMap id := (congrArg Prod.fst h2).symm
    have hlists : lists =
        (List.range metrics.length).map (fun i => (rs.filterMap id).map (fun r => r.2.getD i 0)) :=
      (congrArg Prod.snd h2).symm
    constructor
    · rw [hrows]
      exact runFiles_ok_length metrics files rs hrf
    · intro l hl
      rw [hlists] at hl
      simp only [List.mem_map] at hl
      obtain ⟨i, _, rfl⟩ := hl
      rw [hrows]
      simp

/-- C6 witness: two tiny sample files, both sentinel-skipped, leave zero rows
and empty per-metric lists. -/
theorem evaluate_images_row_filter_witness :
    ([] : List (String × List ℚ)).length +
      ([("a.npy", Except.ok rawTiny), ("b.npy", Except.ok rawTiny)] :
          List (String × Except String RawData)).countP
        (sentinelSkipped using_thresh_metrics) =
      ([("a.npy", Except.ok rawTiny), ("b.npy", Except.ok rawTiny)] :
          List (String × Except String RawData)).length ∧
    ∀ l ∈ [([] : List ℚ), []], l.length = ([] : List (String × List ℚ)).length :=
  evaluate_images_row_filter using_thresh_metrics
    [("a.npy", Except.ok rawTiny), ("b.npy", Except.ok rawTiny)] [] [[], []]
    (by with_unfolding_all rfl)

/-- C9: the source has no handler around `np.load`, so a missing or corrupt
sample file aborts the whole evaluation — the exception propagates out of
`evaluate_images` and the aggregate state accumulated from the previously
processed files is lost, not preserved: with three files whose second one
fails to load, the run returns only the load error. -/
theorem load_failure_aborts_run :
    evaluate_images using_thresh_metrics
      [("samples_0.npy", Except.ok rawTiny),
       ("samples_1.npy", Except.error "No such file: samples_1.npy"),
       ("samples_2.npy", Except.ok rawTiny)] =
      Except.error "No such file: samples_1.npy" := by
  with_unfolding_all rfl

/-- Anchor: `otsu` unfolded to its scan. -/
lemma otsu_eq (bytes : List ℕ) :
    otsu bytes = (otsuLoop (fun i => bytes.count i) (1 / (bytes.length : ℚ))
      ((∑ i ∈ Finset.range 256, (i : ℚ) * ((bytes.count i : ℕ) : ℚ)) * (1 / (bytes.length : ℚ)))
      0 256 ⟨0, 0, 0, 0⟩).maxVal := rfl

/-- A segment of the scan whose steps all fix the state fixes the state. -/
lemma otsuLoop_fix (hist : ℕ → ℕ) (scale mu : ℚ) (i fuel : ℕ) (s : OtsuState)
    (h : ∀ j, i ≤ j → j < i + fuel → otsuStep hist scale mu j s = s) :
    otsuLoop hist scale mu i fuel s = s := by
  induction fuel generalizing i with
  | zero => rfl
  | succ f ih =>
    show otsuLoop hist scale mu (i + 1) f (otsuStep hist scale mu i s) = s
    rw [h i le_rfl (by omega)]
    exact ih (i + 1) (fun j h1 h2 => h j (by omega) (by omega))

/-- The scan splits at any intermediate fuel. -/
lemma otsuLoop_split (hist : ℕ → ℕ) (scale mu : ℚ) (i f1 f2 : ℕ) (s : OtsuState) :
    otsuLoop hist scale mu i (f1 + f2) s =
    otsuLoop hist scale mu (i + f1) f2 (otsuLoop hist scale mu i f1 s) := by
  induction f1 generalizing i s with
  | zero =>
    rw [Nat.zero_add]
    rfl
  | succ f ih =>
    have h1 : f + 1 + f2 = (f + f2) + 1 := by omega
    rw [h1]
    show otsuLoop hist scale mu (i + 1) (f + f2) (otsuStep hist scale mu i s) = _
    rw [ih (i + 1) (otsuStep hist scale mu i s)]
    have h2 : i + 1 + f = i + (f + 1) := by omega
    rw [h2]
    rfl

/-- A scan step with no mass at `i` and no mass accumulated yet skips and
leaves the state unchanged. -/
lemma otsuStep_q0 (hist : ℕ → ℕ) (scale mu : ℚ) (i : ℕ) (σ : ℚ) (v : ℕ)
    (h0 : hist i = 0) :
    otsuStep hist scale mu i ⟨0, 0, σ, v⟩ = ⟨0, 0, σ, v⟩ := by
  simp [otsuStep, h0]

/-- A scan step with no mass at `i` after all mass has been consumed skips
and leaves the state unchanged. -/
lemma otsuStep_q1full (hist : ℕ → ℕ) (scale mu : ℚ) (i : ℕ) (m σ : ℚ) (v : ℕ)
    (h0 : hist i = 0) :
    otsuStep hist scale mu i ⟨1, m, σ, v⟩ = ⟨1, m, σ, v⟩ := by
  simp [otsuStep, h0]

/-- A scan step that consumes the whole mass at once skips (the high class
would be empty). -/
lemma otsuStep_full_jump (hist : ℕ → ℕ) (scale mu : ℚ) (i : ℕ) (σ : ℚ) (v : ℕ)
    (h1 : (hist i : ℚ) * scale = 1) :
    otsuStep hist scale mu i ⟨0, 0, σ, v⟩ = ⟨1, 0, σ, v⟩ := by
  simp [otsuStep, h1]

/-- A scan step with no mass at `i` while the accumulated mass sits strictly
between 0 and 1 recomputes the same class statistics and changes nothing:
the running mean stays `m` and the recomputed variance equals the stored
maximum, which the strict comparison does not replace. -/
lemma otsuStep_mid (hist : ℕ → ℕ) (scale mu : ℚ) (i : ℕ) (q m σ : ℚ) (v : ℕ)
    (h0 : hist i = 0) (hq0 : 0 < q) (hq1 : q < 1)
    (hσ : σ = q * (1 - q) * (m - (mu - q * m) / (1 - q)) * (m - (mu - q * m) / (1 - q))) :
    otsuStep hist scale mu i ⟨q, m, σ, v⟩ = ⟨q, m, σ, v⟩ := by
  have hmq : m * q / q = m := mul_div_cancel_right₀ m (ne_of_gt hq0)
  simp only [otsuStep, h0, Nat.cast_zero, zero_mul, add_zero, mul_zero, hmq]
  rw [if_neg (by push_neg; exact ⟨hq0, by linarith⟩)]
  rw [if_neg (by rw [← hσ]; exact lt_irrefl σ)]

/-- The first scan step carrying mass `q` strictly between 0 and 1 computes a
positive between-class variance and records `i` as the best threshold. -/
lemma otsuStep_hit (hist : ℕ → ℕ) (scale mu : ℚ) (i : ℕ) (q : ℚ)
    (hq : (hist i : ℚ) * scale = q) (hq0 : 0 < q) (hq1 : q < 1)
    (hσ : 0 < q * (1 - q) * ((i : ℚ) - (mu - q * (i : ℚ)) / (1 - q)) *
        ((i : ℚ) - (mu - q * (i : ℚ)) / (1 - q))) :
    otsuStep hist scale mu i ⟨0, 0, 0, 0⟩ =
      ⟨q, (i : ℚ), q * (1 - q) * ((i : ℚ) - (mu - q * (i : ℚ)) / (1 - q)) *
        ((i : ℚ) - (mu - q * (i : ℚ)) / (1 - q)), i⟩ := by
  have hiq : (i : ℚ) * q / q = (i : ℚ) := mul_div_cancel_right₀ _ (ne_of_gt hq0)
  simp only [otsuStep, hq, mul_zero, zero_mul, zero_add, add_zero, hiq]
  rw [if_neg (by push_neg; exact ⟨hq0, by linarith⟩)]
  rw [if_pos hσ]

/-- The scan step that consumes the remaining mass (reaching `q1 = 1`) skips;
only the un-normalized running mean field changes. -/
lemma otsuStep_close (hist : ℕ → ℕ) (scale mu : ℚ) (i : ℕ) (q m σ : ℚ) (v : ℕ)
    (hq : q + (hist i : ℚ) * scale = 1) :
    otsuStep hist scale mu i ⟨q, m, σ, v⟩ = ⟨1, m * q, σ, v⟩ := by
  simp [otsuStep, hq]

/-- In a two-valued list the two counts exhaust the length. -/
lemma count_pair (bytes : List ℕ) (a b : ℕ) (hab : a ≠ b)
    (hv : ∀ x ∈ bytes, x = a ∨ x = b) :
    bytes.count a + bytes.count b = bytes.length := by
  induction bytes with
  | nil => simp
  | cons x xs ih =>
    have ihr := ih (fun y hy => hv y (List.mem_cons_of_mem x hy))
    rcases hv x (List.mem_cons_self x xs) with rfl | rfl
    · rw [List.count_cons_self, List.count_cons_of_ne (Ne.symm hab)]
      simp only [List.length_cons]
      omega
    · rw [List.count_cons_self, List.count_cons_of_ne hab]
      simp only [List.length_cons]
      omega

/-- A value that never occurs has count 0. -/
lemma count_zero_of_two_valued (bytes : List ℕ) (a b j : ℕ) (hja : j ≠ a) (hjb : j ≠ b)
    (hv : ∀ x ∈ bytes, x = a ∨ x = b) : bytes.count j = 0 := by
  rw [List.count_eq_zero]
  intro hmem
  rcases hv j hmem with rfl | rfl
  · exact hja rfl
  · exact hjb rfl

/-- One unit of fuel is one scan step. -/
lemma otsuLoop_one (hist : ℕ → ℕ) (scale mu : ℚ) (i : ℕ) (s : OtsuState) :
    otsuLoop hist scale mu i 1 s = otsuStep hist scale mu i s := rfl

/-- The 256-step scan split around a single candidate `c`. -/
lemma otsuLoop_decomp (hist : ℕ → ℕ) (scale mu : ℚ) (c : ℕ) (hc : c ≤ 255) (s : OtsuState) :
    otsuLoop hist scale mu 0 256 s =
      otsuLoop hist scale mu (c + 1) (255 - c)
        (otsuLoop hist scale mu c 1 (otsuLoop hist scale mu 0 c s)) := by
  have h1 : (256 : ℕ) = c + (1 + (255 - c)) := by omega
  rw [h1, otsuLoop_split, otsuLoop_split]
  simp only [Nat.zero_add]

/-- The 256-step scan split around two candidates `a < b`. -/
lemma otsuLoop_decomp2 (hist : ℕ → ℕ) (scale mu : ℚ) (a b : ℕ) (hab : a < b) (hb : b ≤ 255)
    (s : OtsuState) :
    otsuLoop hist scale mu 0 256 s =
      otsuLoop hist scale mu (b + 1) (255 - b)
        (otsuLoop hist scale mu b 1
          (otsuLoop hist scale mu (a + 1) (b - a - 1)
            (otsuLoop hist scale mu a 1 (otsuLoop hist scale mu 0 a s)))) := by
  have h1 : (256 : ℕ) = a + (1 + ((b - a - 1) + (1 + (255 - b)))) := by omega
  rw [h1, otsuLoop_split, otsuLoop_split, otsuLoop_split, otsuLoop_split]
  simp only [Nat.zero_add]
  have e2 : a + 1 + (b - a - 1) = b := by omega
  rw [e2]

/-- A constant byte list makes OpenCV's Otsu search return threshold 0: every
candidate split leaves one class empty, so the scan never updates its best
threshold. -/
lemma otsu_const (bytes : List ℕ) (c : ℕ) (hc : c ≤ 255) (hne : bytes ≠ [])
    (hv : ∀ x ∈ bytes, x = c) : otsu bytes = 0 := by
  have hnpos : 0 < bytes.length := List.length_pos.mpr hne
  have hcc : bytes.count c = bytes.length := List.count_eq_length.mpr (fun y hy => (hv y hy).symm)
  have hh0 : ∀ j, j ≠ c → bytes.count j = 0 := fun j hj =>
    count_zero_of_two_valued bytes c c j hj hj (fun x hx => Or.inl (hv x hx))
  have hfull : ((bytes.count c : ℕ) : ℚ) * (1 / (bytes.length : ℚ)) = 1 := by
    rw [hcc]
    have hnz : ((bytes.length : ℕ) : ℚ) ≠ 0 := by
      exact_mod_cast Nat.pos_iff_ne_zero.mp hnpos
    field_simp
  rw [otsu_eq, otsuLoop_decomp _ _ _ c hc]
  rw [otsuLoop_fix _ _ _ 0 c ⟨0, 0, 0, 0⟩
    (fun j _ hj2 => otsuStep_q0 _ _ _ j 0 0 (hh0 j (by omega)))]
  rw [otsuLoop_one, otsuStep_full_jump _ _ _ c 0 0 hfull]
  rw [otsuLoop_fix _ _ _ (c + 1) (255 - c) ⟨1, 0, 0, 0⟩
    (fun j hj1 _ => otsuStep_q1full _ _ _ j 0 0 0 (hh0 j (by omega)))]

/-- A byte list taking exactly the two values `a < b`, both with positive
count, makes OpenCV's Otsu search return `a`: the split at `a` attains the
maximal between-class variance first, the candidates strictly between `a` and
`b` recompute the same variance without improving on it, and beyond `b` one
class is empty. -/
lemma otsu_two_level (bytes : List ℕ) (a b : ℕ) (hab : a < b) (hb : b ≤ 255)
    (ha0 : 0 < bytes.count a) (hb0 : 0 < bytes.count b)
    (hv : ∀ x ∈ bytes, x = a ∨ x = b) : otsu bytes = a := by
  have habne : a ≠ b := Nat.ne_of_lt hab
  have hcount : bytes.count a + bytes.count b = bytes.length := count_pair bytes a b habne hv
  have hh0 : ∀ j, j ≠ a → j ≠ b → bytes.count j = 0 :=
    fun j hj1 hj2 => count_zero_of_two_valued bytes a b j hj1 hj2 hv
  have hnq : (0 : ℚ) < (bytes.length : ℚ) := by exact_mod_cast (by omega : 0 < bytes.length)
  have hca : (0 : ℚ) < (bytes.count a : ℚ) := by exact_mod_cast ha0
  have hcb : (0 : ℚ) < (bytes.count b : ℚ) := by exact_mod_cast hb0
  have hsum : ((bytes.count a : ℕ) : ℚ) + ((bytes.count b : ℕ) : ℚ) = (bytes.length : ℚ) := by
    exact_mod_cast hcount
  have habq : ((a : ℚ) - (b : ℚ)) ≠ 0 := by
    have hne : (a : ℚ) ≠ (b : ℚ) := by exact_mod_cast habne
    exact sub_ne_zero.mpr hne
  rw [otsu_eq]
  set nq : ℚ := (bytes.length : ℚ) with hnqdef
  set caq : ℚ := ((bytes.count a : ℕ) : ℚ) with hcadef
  set cbq : ℚ := ((bytes.count b : ℕ) : ℚ) with hcbdef
  set mu : ℚ := (∑ i ∈ Finset.range 256, (i : ℚ) * ((bytes.count i : ℕ) : ℚ)) * (1 / nq)
    with hmudef
  set q : ℚ := caq * (1 / nq) with hqdef
  have hq0 : 0 < q := by
    rw [hqdef]
    exact mul_pos hca (one_div_pos.mpr hnq)
  have hq1 : q < 1 := by
    rw [hqdef, mul_one_div, div_lt_one hnq]
    linarith
  have h1qpos : 0 < 1 - q := by linarith
  have hmusum : (∑ i ∈ Finset.range 256, (i : ℚ) * ((bytes.count i : ℕ) : ℚ)) =
      (a : ℚ) * caq + (b : ℚ) * cbq := by
    rw [← Finset.sum_subset (show ({a, b} : Finset ℕ) ⊆ Finset.range 256 by
      intro x hx
      rcases Finset.mem_insert.mp hx with rfl | hx2
      · exact Finset.mem_range.mpr (by omega)
      · rw [Finset.mem_singleton] at hx2
        subst hx2
        exact Finset.mem_range.mpr (by omega))
      (fun x _ hnx => by
        have hxa : x ≠ a := fun he => hnx (by rw [he]; exact Finset.mem_insert_self a {b})
        have hxb : x ≠ b := fun he =>
          hnx (by rw [he]; exact Finset.mem_insert_of_mem (Finset.mem_singleton_self b))
        rw [hh0 x hxa hxb]
        simp)]
    rw [Finset.sum_pair habne]
  have hMval : mu = ((a : ℚ) * caq + (b : ℚ) * cbq) * (1 / nq) := by rw [hmudef, hmusum]
  have hm2' : mu - q * (a : ℚ) = (b : ℚ) * (1 - q) := by
    rw [hMval, hqdef]
    field_simp
    linear_combination (b : ℚ) * hsum
  have hm2 : (mu - q * (a : ℚ)) / (1 - q) = (b : ℚ) := by
    rw [hm2', mul_div_cancel_right₀ _ (ne_of_gt h1qpos)]
  have hσpos : 0 < q * (1 - q) * ((a : ℚ) - (mu - q * (a : ℚ)) / (1 - q)) *
      ((a : ℚ) - (mu - q * (a : ℚ)) / (1 - q)) := by
    rw [hm2]
    have h2 : 0 < ((a : ℚ) - (b : ℚ)) * ((a : ℚ) - (b : ℚ)) := mul_self_pos.mpr habq
    have h3 : q * (1 - q) * ((a : ℚ) - (b : ℚ)) * ((a : ℚ) - (b : ℚ)) =
        (q * (1 - q)) * (((a : ℚ) - (b : ℚ)) * ((a : ℚ) - (b : ℚ))) := by ring
    rw [h3]
    exact mul_pos (mul_pos hq0 h1qpos) h2
  have hqb : q + ((bytes.count b : ℕ) : ℚ) * (1 / nq) = 1 := by
    rw [hqdef, mul_one_div, mul_one_div, div_add_div_same, hsum]
    exact div_self (ne_of_gt hnq)
  rw [otsuLoop_decomp2 _ _ _ a b hab hb]
  rw [otsuLoop_fix _ _ _ 0 a ⟨0, 0, 0, 0⟩
    (fun j _ hj2 => otsuStep_q0 _ _ _ j 0 0 (hh0 j (by omega) (by omega)))]
  rw [otsuLoop_one _ _ _ a, otsuStep_hit _ _ _ a q hqdef.symm hq0 hq1 hσpos]
  rw [otsuLoop_fix _ _ _ (a + 1) (b - a - 1)
    ⟨q, (a : ℚ), q * (1 - q) * ((a : ℚ) - (mu - q * (a : ℚ)) / (1 - q)) *
      ((a : ℚ) - (mu - q * (a : ℚ)) / (1 - q)), a⟩
    (fun j hj1 hj2 =>
      otsuStep_mid _ _ _ j q (a : ℚ) _ a (hh0 j (by omega) (by omega)) hq0 hq1 rfl)]
  rw [otsuLoop_one _ _ _ b, otsuStep_close _ _ _ b q (a : ℚ) _ a hqb]
  rw [otsuLoop_fix _ _ _ (b + 1) (255 - b)
    ⟨1, (a : ℚ) * q, q * (1 - q) * ((a : ℚ) - (mu - q * (a : ℚ)) / (1 - q)) *
      ((a : ℚ) - (mu - q * (a : ℚ)) / (1 - q)), a⟩
    (fun j hj1 hj2 => otsuStep_q1full _ _ _ j _ _ a (hh0 j (by omega) (by omega)))]

/-- Any nonempty byte list whose values lie in {0, 255} — in particular the
rescaled output of a previous binarization — makes Otsu return threshold 0. -/
lemma otsu_binary (bytes : List ℕ) (hne : bytes ≠ [])
    (hv : ∀ x ∈ bytes, x = 0 ∨ x = 255) : otsu bytes = 0 := by
  rcases Nat.eq_zero_or_pos (bytes.count 0) with h0 | h0
  · have hmem : (0 : ℕ) ∉ bytes := List.count_eq_zero.mp h0
    have hv' : ∀ x ∈ bytes, x = 255 := by
      intro x hx
      rcases hv x hx with rfl | rfl
      · exact absurd hx hmem
      · rfl
    exact otsu_const bytes 255 le_rfl hne hv'
  · rcases Nat.eq_zero_or_pos (bytes.count 255) with h255 | h255
    · have hmem : (255 : ℕ) ∉ bytes := List.count_eq_zero.mp h255
      have hv' : ∀ x ∈ bytes, x = 0 := by
        intro x hx
        rcases hv x hx with rfl | rfl
        · rfl
        · exact absurd hx hmem
      exact otsu_const bytes 0 (by omega) hne hv'
    · exact otsu_two_level bytes 0 255 (by omega) le_rfl h0 h255 hv

/-- The byte rescaling of the specification's 2x2 scenario: pixel scores
0.9, 0.9, 0.1, 0.1 under an all-ones mask become bytes 229, 229, 25, 25
(truncation of 229.5 and 25.5, matching the double rounding). -/
lemma masked_bytes_example :
    masked_bytes [9/10, 9/10, 1/10, 1/10] [1, 1, 1, 1] = [229, 229, 25, 25] := by
  with_unfolding_all decide

/-- Otsu on the scenario's bytes returns 25, the first maximizer. -/
lemma otsu_example : otsu [229, 229, 25, 25] = 25 :=
  otsu_two_level [229, 229, 25, 25] 25 229 (by omega) (by omega) (by decide) (by decide)
    (by decide)

/-- The threshold selector on the specification's 2x2 scenario: threshold
25/255 = 5/51 and an all-ones binarization (0.1 > 0.098...). -/
lemma mask_fn_example :
    mask_fn [9/10, 9/10, 1/10, 1/10] [1, 1, 1, 1] = some (5/51, [1, 1, 1, 1]) := by
  simp only [mask_fn]
  rw [masked_bytes_example, if_neg (by decide), otsu_example]
  norm_num [binarize_gt]

/-- C2 (amended): the threshold selector selects the pixels inside the mask,
rescales them to bytes, runs Otsu, rescales the threshold by 255 and
binarizes the full map strictly above it, returning the pair; but on the
score map [[0.9,0.9],[0.1,0.1]] with an all-ones mask the Otsu threshold is
25/255 = 5/51, which lies BELOW 0.1 (not strictly between 0.1 and 0.9), so
the binarized map is all ones. -/
theorem mask_fn_spec :
    (∀ (pred mask : List ℚ), masked_bytes pred mask ≠ [] →
        mask_fn pred mask = some (((otsu (masked_bytes pred mask) : ℕ) : ℚ) / 255,
          binarize_gt (((otsu (masked_bytes pred mask) : ℕ) : ℚ) / 255) pred)) ∧
    (mask_fn [9/10, 9/10, 1/10, 1/10] [1, 1, 1, 1] = some (5/51, [1, 1, 1, 1]) ∧
      (5/51 : ℚ) < 1/10) := by
  refine ⟨?_, mask_fn_example, by norm_num⟩
  intro pred mask h
  simp only [mask_fn]
  rw [if_neg h]

/-- C2 witness: the pipeline clause applied to a one-pixel map. -/
theorem mask_fn_spec_witness :
    mask_fn [1/2] [1] = some (((otsu (masked_bytes [1/2] [1]) : ℕ) : ℚ) / 255,
      binarize_gt (((otsu (masked_bytes [1/2] [1]) : ℕ) : ℚ) / 255) [1/2]) :=
  mask_fn_spec.1 [1/2] [1] (by with_unfolding_all decide)

/-- C2 counterexample: on the specification's scenario the returned threshold
5/51 is not strictly between 0.1 and 0.9 and the binarized map is [1,1,1,1],
not [1,1,0,0]. -/
theorem mask_fn_scenario_counterexample :
    mask_fn [9/10, 9/10, 1/10, 1/10] [1, 1, 1, 1] = some (5/51, [1, 1, 1, 1]) ∧
    ¬((1/10 : ℚ) < 5/51 ∧ (5/51 : ℚ) < 9/10) ∧
    ([(1 : ℚ), 1, 1, 1] : List ℚ) ≠ [1, 1, 0, 0] := by
  refine ⟨mask_fn_example, by norm_num, by simp⟩

/-- Masked-pixel selection keeps the same positions for same-length maps. -/
lemma masked_bytes_length (xs ys mask : List ℚ) (h : xs.length = ys.length) :
    (masked_bytes xs mask).length = (masked_bytes ys mask).length := by
  rw [masked_bytes, masked_bytes, List.length_map, List.length_map]
  induction xs generalizing ys mask with
  | nil =>
    have : ys = [] := List.length_eq_zero.mp h.symm
    subst this
    rfl
  | cons x xs ih =>
    cases ys with
    | nil => simp at h
    | cons y ys =>
      cases mask with
      | nil => rfl
      | cons m ms =>
        have h' : xs.length = ys.length := by simpa using h
        by_cases hm : m > 0 <;> simp [hm, ih ys ms h']

/-- Every selected masked byte comes from a score value of the map. -/
lemma masked_bytes_mem (bm mask : List ℚ) (x : ℕ) (hx : x ∈ masked_bytes bm mask) :
    ∃ v ∈ bm, x = ratToUint8 (v * 255) := by
  rw [masked_bytes] at hx
  simp only [List.mem_map] at hx
  obtain ⟨p, hp, rfl⟩ := hx
  simp only [List.mem_filterMap] at hp
  obtain ⟨pm, hpm, hsel⟩ := hp
  obtain ⟨p1, p2⟩ := pm
  split_ifs at hsel with hm
  · injection hsel with he
    subst he
    exact ⟨p1, (List.of_mem_zip hpm).1, rfl⟩

/-- Mapping a function that fixes every member is the identity. -/
lemma map_id_of_mem {α : Type} (l : List α) (f : α → α) (h : ∀ v ∈ l, f v = v) :
    l.map f = l := by
  induction l with
  | nil => rfl
  | cons x xs ih =>
    rw [List.map_cons, h x (List.mem_cons_self x xs),
      ih (fun v hv => h v (List.mem_cons_of_mem x hv))]

/-- C8: the Otsu threshold selector is idempotent — rerunning it on the
binarized map it produced (under the same mask) yields a threshold (0) whose
binarization reproduces the same binary map. -/
theorem otsu_idempotent (pred mask : List ℚ) (t : ℚ) (bm : List ℚ)
    (h : mask_fn pred mask = some (t, bm)) :
    ∃ t2, mask_fn bm mask = some (t2, bm) := by
  by_cases hne : masked_bytes pred mask = []
  · simp only [mask_fn] at h
    rw [if_pos hne] at h
    exact absurd h (by simp)
  · simp only [mask_fn] at h
    rw [if_neg hne] at h
    injection h with h2
    have hbm : bm = binarize_gt (((otsu (masked_bytes pred mask) : ℕ) : ℚ) / 255) pred :=
      (congrArg Prod.snd h2).symm
    have hbm01 : ∀ v ∈ bm, v = 0 ∨ v = 1 := by
      intro v hv
      rw [hbm, binarize_gt] at hv
      simp only [List.mem_map] at hv
      obtain ⟨p, _, rfl⟩ := hv
      split_ifs <;> simp
    have hlen : bm.length = pred.length := by
      rw [hbm, binarize_gt, List.length_map]
    have hne2 : masked_bytes bm mask ≠ [] := by
      intro hcon
      apply hne
      have hl := masked_bytes_length bm pred mask hlen
      rw [hcon] at hl
      exact List.length_eq_zero.mp (by simpa using hl.symm)
    have hvals : ∀ x ∈ masked_bytes bm mask, x = 0 ∨ x = 255 := by
      intro x hx
      obtain ⟨v, hv, rfl⟩ := masked_bytes_mem bm mask x hx
      rcases hbm01 v hv with rfl | rfl
      · left
        with_unfolding_all decide
      · right
        with_unfolding_all decide
    have hot : otsu (masked_bytes bm mask) = 0 := otsu_binary _ hne2 hvals
    refine ⟨((0 : ℕ) : ℚ) / 255, ?_⟩
    simp only [mask_fn]
    rw [if_neg hne2, hot]
    have ht0 : ((0 : ℕ) : ℚ) / 255 = 0 := by norm_num
    have hback : binarize_gt (((0 : ℕ) : ℚ) / 255) bm = bm := by
      rw [ht0, binarize_gt]
      apply map_id_of_mem
      intro v hv
      rcases hbm01 v hv with rfl | rfl
      · rw [if_neg (lt_irrefl 0)]
      · rw [if_pos one_pos]
    rw [hback]

/-- C8 witness: rerunning the selector on the all-ones binarization of the
2x2 scenario reproduces it. -/
theorem otsu_idempotent_witness :
    ∃ t2, mask_fn [(1 : ℚ), 1, 1, 1] [1, 1, 1, 1] = some (t2, [1, 1, 1, 1]) :=
  otsu_idempotent [9/10, 9/10, 1/10, 1/10] [1, 1, 1, 1] (5/51) [1, 1, 1, 1] mask_fn_example
